import Mathlib

/-!
Verification of the semantic-analysis core of the EdgeDB query compiler
(`edgedb/lang/ir/utils.py`) against its natural-language specification.

The Python source is shallowly embedded: each analysed function is
translated into an executable Lean definition over an inductive model of
the IR node taxonomy.  Python `set` collections are modelled as lists with
structural deduplication; distinct runtime objects are modelled by giving
them distinct labels, so structural equality of model values corresponds
to object identity of the distinct nodes the analysed code manipulates.
Fallible code paths (raised exceptions, failed assertions) are modelled
with `Option`/`Except`.
-/

/-! ## Path combination algebra (`Disjunction`/`Conjunction` over path sets)

Models `irast.PathCombination` values as seen by `flatten_path_combination`
and `PathExtractor.combine_field_results`.  A plain (non-combination) path
is an `atom` with a label standing for the identity of the IR node. -/

inductive CombKind where
  | disjunction
  | conjunction
deriving DecidableEq, Repr

inductive PPath where
  | atom (id : Nat)
  | comb (kind : CombKind) (paths : List PPath)

mutual
def PPath.decEq : (a b : PPath) → Decidable (a = b)
  | .atom i, .atom j =>
      if h : i = j then .isTrue (by subst h; rfl) else .isFalse (by simp [h])
  | .atom _, .comb _ _ => .isFalse (by simp)
  | .comb _ _, .atom _ => .isFalse (by simp)
  | .comb k ps, .comb k2 qs =>
      if hk : k = k2 then
        match PPath.decEqList ps qs with
        | .isTrue h => .isTrue (by rw [hk, h])
        | .isFalse h => .isFalse (by simp [h])
      else .isFalse (by simp [hk])

def PPath.decEqList : (as bs : List PPath) → Decidable (as = bs)
  | [], [] => .isTrue rfl
  | [], _ :: _ => .isFalse (by simp)
  | _ :: _, [] => .isFalse (by simp)
  | a :: as, b :: bs =>
      match PPath.decEq a b, PPath.decEqList as bs with
      | .isTrue h1, .isTrue h2 => .isTrue (by rw [h1, h2])
      | .isFalse h1, _ => .isFalse (by simp [h1])
      | _, .isFalse h2 => .isFalse (by simp [h2])
end

instance : DecidableEq PPath := PPath.decEq

/-- Member-absorption loop of `flatten_path_combination` (utils.py:268-281):
walks the members of a combination of class `k`; a member that is a
combination of the same class (or, when `recursive`, any combination)
contributes its own members (recursively flattened when `recursive`),
any other member contributes itself. -/
def flattenMembers (recursive : Bool) (k : CombKind) : List PPath → List PPath
  | [] => []
  | p :: rest =>
    (match p with
     | .atom i => [PPath.atom i]
     | .comb k2 qs =>
       if k2 = k ∨ recursive then
         if recursive then List.dedup (flattenMembers recursive k2 qs)
         else qs
       else [PPath.comb k2 qs]) ++ flattenMembers recursive k rest

/-- `flatten_path_combination(expr, recursive)` (utils.py:268-282): rebuilds
the member set of a combination by absorbing nested combination members
per `flattenMembers`, assigning the result back to the same combination
(modelled functionally: the returned value keeps the combination class). -/
def flatten_path_combination (expr : PPath) (recursive : Bool := false) : PPath :=
  match expr with
  | .atom i => .atom i
  | .comb k ps => .comb k (List.dedup (flattenMembers recursive k ps))

/-- `PathExtractor.combine_field_results` (utils.py:295-308) restricted to the
non-null sub-results: dedupe (Python `set(results)`), return the single
element alone, `none` for the empty set, otherwise wrap in the given
combination class, flattening (non-recursively) unless suppressed. -/
def combine_field_results (combination : CombKind) (flatten : Bool)
    (results : List PPath) : Option PPath :=
  let paths := List.dedup results
  if paths.length = 1 then paths.head?
  else if paths.length = 0 then none
  else
    let result := PPath.comb combination paths
    if flatten then some (flatten_path_combination result false) else some result

/-- The member list of a combination; an atom has no members. -/
def PPath.members : PPath → List PPath
  | .atom _ => []
  | .comb _ ps => ps

/-- The combination class of a value (`none` for a plain path). -/
def PPath.kindOf : PPath → Option CombKind
  | .atom _ => none
  | .comb k _ => some k

def PPath.isAtom : PPath → Bool
  | .atom _ => true
  | .comb _ _ => false

/-- Is this value a combination of class `k`? -/
def PPath.isCombOf (k : CombKind) : PPath → Bool
  | .atom _ => false
  | .comb k2 _ => k2 = k

mutual
/-- All plain (atom) paths reachable inside a value, in traversal order. -/
def PPath.atomsIn : PPath → List PPath
  | .atom i => [.atom i]
  | .comb _ ps => atomsInList ps

def atomsInList : List PPath → List PPath
  | [] => []
  | p :: rest => p.atomsIn ++ atomsInList rest
end

/-! ## `LinearPath`: positional path identity (utils.py:421-475)

A `LinearPath` is a list alternating node-type elements and
`(link, direction)` step elements.  Links are schema objects with a
`generic()` test and a `bases` list (modelled structurally). -/

inductive SLink where
  | mk (id : Nat) (generic : Bool) (bases : List SLink)

mutual
def SLink.decEq : (a b : SLink) → Decidable (a = b)
  | .mk i g bs, .mk i2 g2 bs2 =>
      if h : i = i2 ∧ g = g2 then
        match SLink.decEqList bs bs2 with
        | .isTrue hb => .isTrue (by rw [h.1, h.2, hb])
        | .isFalse hb => .isFalse (by simp [hb])
      else .isFalse (by simp; intro h1 h2; exact fun _ => h ⟨h1, h2⟩)

def SLink.decEqList : (as bs : List SLink) → Decidable (as = bs)
  | [], [] => .isTrue rfl
  | [], _ :: _ => .isFalse (by simp)
  | _ :: _, [] => .isFalse (by simp)
  | a :: as, b :: bs =>
      match SLink.decEq a b, SLink.decEqList as bs with
      | .isTrue h1, .isTrue h2 => .isTrue (by rw [h1, h2])
      | .isFalse h1, _ => .isFalse (by simp [h1])
      | _, .isFalse h2 => .isFalse (by simp [h2])
end

instance : DecidableEq SLink := SLink.decEq

def SLink.idOf : SLink → Nat
  | .mk i _ _ => i

def SLink.isGeneric : SLink → Bool
  | .mk _ g _ => g

def SLink.basesOf : SLink → List SLink
  | .mk _ _ bs => bs

inductive PElem where
  | nodeT (id : Nat)
  | step (linkId : Nat) (dir : Bool)
deriving DecidableEq, Repr

/-- The comparison loop of `LinearPath.__eq__` (utils.py:441-448):
`for i in range(1, len(self) - 1, 2)` compares `self[i]`/`self[i+1]`
against `other`; a mismatch breaks out of the loop and yields `False`,
and completing the loop yields `True`.  The loop body runs exactly while
at least two elements remain past index `i` (`i < len - 1`), so on the
tails past index 0 — the caller has already ensured equal lengths — it
consumes both tails two elements at a time and accepts once fewer than
two remain. -/
def eqPairs : List PElem → List PElem → Bool
  | a :: b :: xs, c :: d :: ys =>
    if a ≠ c then false
    else if b ≠ d then false
    else eqPairs xs ys
  | _, _ => true

/-- `LinearPath.__eq__` (utils.py:429-448): unequal lengths are unequal,
empty paths are equal, index 0 is compared first, then the stepping loop
over the remaining indices. -/
def linearPathEq (xs ys : List PElem) : Bool :=
  if xs.length ≠ ys.length then false
  else if xs.length = 0 then true
  else if xs.headD (.nodeT 0) ≠ ys.headD (.nodeT 0) then false
  else eqPairs xs.tail ys.tail

/-- `LinearPath.add(link, direction, target)` (utils.py:450-453): a
non-generic link is first replaced by `link.bases[0]` (`none` models the
`IndexError` when a non-generic link has no bases), then the
`(link, direction)` step and the target node are appended. -/
def linearPathAdd (p : List PElem) (link : SLink) (dir : Bool) (target : Nat) :
    Option (List PElem) :=
  if link.isGeneric then
    some (p ++ [.step link.idOf dir, .nodeT target])
  else
    match link.basesOf with
    | [] => none
    | b :: _ => some (p ++ [.step b.idOf dir, .nodeT target])

/-! ## Reverse entity-set extraction (`PathExtractor.visit_EntitySet`)

An entity-set with its upward `rlink` chain is modelled as `RChain`:
`.link l p` is an entity-set labelled `l` whose `rlink.source` is `p`,
and `.root l` is a root entity-set with no `rlink` (spec §3 invariant:
every `rlink` chain terminates at such a root). -/

inductive RChain where
  | root (label : Nat)
  | link (label : Nat) (parent : RChain)
deriving DecidableEq, Repr

/-- The fragment list built by the `while result.rlink` loop of
`visit_EntitySet` (utils.py:354-359): the visited node followed by each
successive `rlink.source` up to and including the root. -/
def RChain.fragments : RChain → List RChain
  | .root l => [.root l]
  | .link l p => .link l p :: p.fragments

/-- The root reached by walking `rlink.source` repeatedly. -/
def RChain.rootOf : RChain → RChain
  | .root l => .root l
  | .link _ p => p.rootOf

/-- Number of entity-sets on the chain (the visited node and its ancestors). -/
def RChain.lengthOf : RChain → Nat
  | .root _ => 1
  | .link _ p => p.lengthOf + 1

inductive VisitResult where
  | single (node : RChain)
  | disjunctionOf (nodes : List RChain)
deriving DecidableEq, Repr

/-- `PathExtractor.visit_EntitySet` (utils.py:350-366): in reverse mode the
fragment list is collected; `paths[-1]` (the root) is returned when the
list is a singleton or `all_fragments` is unset, otherwise a Disjunction
of the whole fragment list.  Forward mode returns the node itself. -/
def visit_EntitySet (reverse all_fragments : Bool) (path : RChain) : VisitResult :=
  if reverse then
    let paths := path.fragments
    if paths.length = 1 ∨ ¬all_fragments then
      .single (paths.getLastD path)
    else
      .disjunctionOf paths
  else
    .single path

/-! ## Structural path copying (`copy_path`, utils.py:589-686)

Mutable collections on IR nodes (user sets, join sets, rewrite-flag sets)
are modelled by numeric object identifiers into a set store; two nodes
alias the same mutable set exactly when they hold the same identifier.
`copy_path` constructs each copied node with either the *same* identifier
(field assigned without `.copy()`, aliasing the source's set) or a fresh
identifier (field assigned from `.copy()`, an independent clone).  Fresh
identifiers are drawn from a counter threaded through the copy. -/

structure ESData where
  idv : Nat
  concept : Nat
  usersId : Nat
  joinsId : Nat
  rwId : Nat
deriving DecidableEq, Repr

structure ELData where
  linkProto : Nat
  usersId : Nat
  rwId : Nat
deriving DecidableEq, Repr

structure RefData where
  idv : Nat
  rwId : Nat
deriving DecidableEq, Repr

inductive CopyRootData where
  | entity (d : ESData)
  | ref (r : RefData)
deriving DecidableEq, Repr

/-- An entity-set / reference node with its upward `rlink` chain: each chain
element is the `rlink` (an `EntityLink`) followed by that link's `source`
entity-set, repeated up to the root. -/
structure CPath where
  root : CopyRootData
  chain : List (ELData × ESData)
deriving DecidableEq, Repr

/-- Copy of an `EntitySet` node (utils.py:592-603 and 657-667):
`users=path.users` and `joins=path.joins` alias the source's sets
(identifiers kept), while `rewrite_flags=path.rewrite_flags.copy()`
allocates a fresh set. -/
def copyESData (d : ESData) (c : Nat) : ESData × Nat :=
  ({ d with rwId := c }, c + 1)

/-- Copy of an `EntityLink` node (utils.py:638-649): both
`users=rlink.users.copy()` and `rewrite_flags=rlink.rewrite_flags.copy()`
allocate fresh sets. -/
def copyELData (l : ELData) (c : Nat) : ELData × Nat :=
  ({ l with usersId := c, rwId := c + 1 }, c + 2)

/-- Copy of a `BaseRef` node (utils.py:610-630):
`rewrite_flags=path.rewrite_flags.copy()` allocates a fresh set. -/
def copyRefData (r : RefData) (c : Nat) : RefData × Nat :=
  ({ r with rwId := c }, c + 1)

/-- The `while rlink` loop of `copy_path` (utils.py:637-684): each source
link and its parent entity-set are copied in turn and relinked in the
same topology. -/
def copyChain : List (ELData × ESData) → Nat → List (ELData × ESData) × Nat
  | [], c => ([], c)
  | (l, p) :: rest, c =>
    let (l2, c2) := copyELData l c
    let (p2, c3) := copyESData p c2
    let (rest2, c4) := copyChain rest c3
    ((l2, p2) :: rest2, c4)

/-- `copy_path(path)` on an entity-set or reference node: copy the head
node, then copy the `rlink` chain.  `fresh` is the next unused set
identifier; all identifiers allocated by the copy are `≥ fresh`. -/
def copy_path (path : CPath) (fresh : Nat) : CPath × Nat :=
  match path.root with
  | .entity d =>
    let (d2, c) := copyESData d fresh
    let (ch, c2) := copyChain path.chain c
    (⟨.entity d2, ch⟩, c2)
  | .ref r =>
    let (r2, c) := copyRefData r fresh
    let (ch, c2) := copyChain path.chain c
    (⟨.ref r2, ch⟩, c2)

/-- All mutable-collection identifiers held by the links and entity-sets
of an `rlink` chain. -/
def chainCollIds : List (ELData × ESData) → List Nat
  | [] => []
  | (l, p) :: rest =>
    [l.usersId, l.rwId, p.usersId, p.joinsId, p.rwId] ++ chainCollIds rest

/-- All mutable-collection identifiers held by the nodes of a path. -/
def CPath.collIds (p : CPath) : List Nat :=
  (match p.root with
   | .entity d => [d.usersId, d.joinsId, d.rwId]
   | .ref r => [r.rwId]) ++ chainCollIds p.chain

/-- The chain part of `CPath.clonedIds`. -/
def chainClonedIds : List (ELData × ESData) → List Nat
  | [] => []
  | (l, p) :: rest => [l.usersId, l.rwId, p.rwId] ++ chainClonedIds rest

/-- The mutable-collection identifiers `copy_path` fills from a `.copy()`
call (an independently cloned set): the rewrite-flag set of every copied
node and the user set of every copied link. -/
def CPath.clonedIds (p : CPath) : List Nat :=
  (match p.root with
   | .entity d => [d.rwId]
   | .ref r => [r.rwId]) ++ chainClonedIds p.chain

/-- The user-set identifiers of the entity-set nodes of a path, head to
root.  (`copy_path` assigns `users=path.users` without cloning.) -/
def CPath.entityUserIds (p : CPath) : List Nat :=
  (match p.root with
   | .entity d => [d.usersId]
   | .ref _ => []) ++ p.chain.map (fun lp => lp.2.usersId)

/-- The join-set identifiers of the entity-set nodes of a path, head to
root.  (`copy_path` assigns `joins=path.joins` without cloning.) -/
def CPath.entityJoinIds (p : CPath) : List Nat :=
  (match p.root with
   | .entity d => [d.joinsId]
   | .ref _ => []) ++ p.chain.map (fun lp => lp.2.joinsId)

/-- The set store: maps a set identifier to the set's contents. -/
def SetStore := Nat → List Nat

/-- Mutate the set with identifier `i` by inserting `v` (Python `set.add`). -/
def addToSet (st : SetStore) (i v : Nat) : SetStore :=
  fun j => if j = i then v :: st j else st j

/-- Read the set with identifier `i`. -/
def readSet (st : SetStore) (i : Nat) : List Nat := st i

/-! ## Type inference (`infer_type`, `infer_arg_types`) and prefix extraction

The IR node taxonomy is modelled from spec §3 (the `irast` class
definitions live outside the analysed file); only the fields read by the
analysed functions are carried.  Schema type handles and other values
that can flow into an inference result are modelled as `Val`; the schema
catalog's boundary operations (spec §6) are fields of `Schema`. -/

inductive Val where
  | proto (name : String)
  | setOf (elem : Option Val)
  | collOf (main : String) (subs : List Val)
  | tup (a b : Val)
  | junk (n : Nat)

mutual
def Val.decEq : (a b : Val) → Decidable (a = b)
  | .proto n, .proto m =>
      if h : n = m then .isTrue (by rw [h]) else .isFalse (by simp [h])
  | .setOf a, .setOf b =>
      match Val.decEqOpt a b with
      | .isTrue h => .isTrue (by rw [h])
      | .isFalse h => .isFalse (by simp [h])
  | .collOf n as, .collOf m bs =>
      if h : n = m then
        match Val.decEqList as bs with
        | .isTrue h2 => .isTrue (by rw [h, h2])
        | .isFalse h2 => .isFalse (by simp [h2])
      else .isFalse (by simp [h])
  | .tup a b, .tup c d =>
      match Val.decEq a c, Val.decEq b d with
      | .isTrue h1, .isTrue h2 => .isTrue (by rw [h1, h2])
      | .isFalse h1, _ => .isFalse (by simp [h1])
      | _, .isFalse h2 => .isFalse (by simp [h2])
  | .junk n, .junk m =>
      if h : n = m then .isTrue (by rw [h]) else .isFalse (by simp [h])
  | .proto _, .setOf _ => .isFalse (by simp)
  | .proto _, .collOf _ _ => .isFalse (by simp)
  | .proto _, .tup _ _ => .isFalse (by simp)
  | .proto _, .junk _ => .isFalse (by simp)
  | .setOf _, .proto _ => .isFalse (by simp)
  | .setOf _, .collOf _ _ => .isFalse (by simp)
  | .setOf _, .tup _ _ => .isFalse (by simp)
  | .setOf _, .junk _ => .isFalse (by simp)
  | .collOf _ _, .proto _ => .isFalse (by simp)
  | .collOf _ _, .setOf _ => .isFalse (by simp)
  | .collOf _ _, .tup _ _ => .isFalse (by simp)
  | .collOf _ _, .junk _ => .isFalse (by simp)
  | .tup _ _, .proto _ => .isFalse (by simp)
  | .tup _ _, .setOf _ => .isFalse (by simp)
  | .tup _ _, .collOf _ _ => .isFalse (by simp)
  | .tup _ _, .junk _ => .isFalse (by simp)
  | .junk _, .proto _ => .isFalse (by simp)
  | .junk _, .setOf _ => .isFalse (by simp)
  | .junk _, .collOf _ _ => .isFalse (by simp)
  | .junk _, .tup _ _ => .isFalse (by simp)

def Val.decEqList : (as bs : List Val) → Decidable (as = bs)
  | [], [] => .isTrue rfl
  | [], _ :: _ => .isFalse (by simp)
  | _ :: _, [] => .isFalse (by simp)
  | a :: as, b :: bs =>
      match Val.decEq a b, Val.decEqList as bs with
      | .isTrue h1, .isTrue h2 => .isTrue (by rw [h1, h2])
      | .isFalse h1, _ => .isFalse (by simp [h1])
      | _, .isFalse h2 => .isFalse (by simp [h2])

def Val.decEqOpt : (a b : Option Val) → Decidable (a = b)
  | none, none => .isTrue rfl
  | none, some _ => .isFalse (by simp)
  | some _, none => .isFalse (by simp)
  | some a, some b =>
      match Val.decEq a b with
      | .isTrue h => .isTrue (by rw [h])
      | .isFalse h => .isFalse (by simp [h])
end

instance : DecidableEq Val := Val.decEq

/-- Operator taxonomy: one flag per `isinstance` test the analysed code
performs (a Python operator class may satisfy several). -/
structure Op where
  id : Nat
  isMatch : Bool
  isComparison : Bool
  isTypeCheck : Bool
  isMembership : Bool
  isArith : Bool
  isBoolean : Bool
deriving DecidableEq, Repr

/-- Schema catalog boundary (spec §6): name lookup, pointer resolution on a
concept, property lookup on a link, nearest-common-ancestor, the
`(operator, operand types)` type-rule table (`Bool` flags the
`(op, 'reversed')` key form), and function return types
(`schema.get(name).returntype`). -/
structure Schema where
  get : String → Val
  resolvePointer : Val → String → Option Val
  getptr : Val → String → Option Val
  nca : List Val → Val
  rules : (Op × Bool) → List (Option Val) → Option Val
  funcRet : String → Val

inductive IR where
  | metaRef (name : String)
  | atomicRefSimple (ref : IR) (name : String) (idOf : Option String)
  | atomicRefExpr (expr : IR)
  | linkPropRefSimple (ref : IR) (name : String)
  | linkPropRefExpr (expr : IR)
  | inlineFilter (ref : IR) (expr : IR)
  | inlinePropFilter (ref : IR) (expr : IR)
  | record (concept : Val) (elements : List IR)
  | functionCall (name : String) (args : List IR) (aggSort : List IR)
      (aggFilter : Option IR) (partition : List IR)
  | constant (index : Option Nat) (cexpr : Option IR) (type : Option Val)
  | binOp (op : Op) (left : IR) (right : IR)
  | unaryOp (op : Op) (expr : IR)
  | entitySet (concept : Val) (idOf : Option String) (rlink : Option IR)
  | entityLink (linkProto : Val) (source : Option IR) (target : Option IR)
  | pathCombination (kind : CombKind) (paths : List IR)
  | typeCast (expr : IR) (maintype : String) (subtypes : List String)
  | graphExpr (generator : Option IR) (selector : List IR) (grouper : List IR)
      (sorter : List IR) (setOpArgs : Option (IR × IR))
  | subgraphRef (ref : IR)
  | existPred (expr : IR)
  | noneTest (expr : IR)
  | sequence (elements : List IR)

/-- Errors raised inside `infer_type`. -/
inductive IErr where
  | lookupErr   -- `LookupError`: pointer does not resolve (utils.py:117-120)
  | propAssert  -- `assert prop` (utils.py:132)
  | typeAssert  -- the result-shape assertion (utils.py:204-210)
  | attrErr     -- AttributeError: `.concept`/`.link_proto` on a node lacking it
deriving DecidableEq, Repr

/-- Is this value a schema prototype (`ProtoObject`/`PrototypeClass`)? -/
def Val.isProtoLike : Val → Bool
  | .proto _ => true
  | .setOf _ => true
  | .collOf _ _ => true
  | .tup _ _ => false
  | .junk _ => false

/-- The shape condition of the assertion at utils.py:204-210: a prototype,
or a tuple/list whose element at position 1 is a prototype. -/
def assertOk : Val → Bool
  | .tup _ b => b.isProtoLike
  | v => v.isProtoLike

/-- The result-shape assertion: `None` passes through, a failing non-null
result raises `AssertionError` (modelled as `.typeAssert`). -/
def chk (r : Option Val) : Except IErr (Option Val) :=
  match r with
  | none => .ok none
  | some v => if assertOk v then .ok (some v) else .error .typeAssert

/-- `.concept` attribute access (`EntitySet` and `Record` carry a concept;
any other node raises `AttributeError`). -/
def conceptOfNode : IR → Except IErr Val
  | .entitySet c _ _ => .ok c
  | .record c _ => .ok c
  | _ => .error .attrErr

/-- `.link_proto` attribute access (`EntityLink` only). -/
def linkProtoOfNode : IR → Except IErr Val
  | .entityLink lp _ _ => .ok lp
  | _ => .error .attrErr

def collectConcepts : List IR → Except IErr (List Val)
  | [] => .ok []
  | p :: rest =>
    match conceptOfNode p with
    | .error e => .error e
    | .ok c =>
      match collectConcepts rest with
      | .error e => .error e
      | .ok cs => .ok (c :: cs)

def collectLinkProtos : List IR → Except IErr (List Val)
  | [] => .ok []
  | p :: rest =>
    match linkProtoOfNode p with
    | .error e => .error e
    | .ok c =>
      match collectLinkProtos rest with
      | .error e => .error e
      | .ok cs => .ok (c :: cs)

/-- The owning concept of an `AtomicRefSimple`'s `ref` (utils.py:108-112): a
`PathCombination` ref resolves to the nearest common ancestor of its
members' concepts, any other ref to its own `.concept`. -/
def conceptFromRef (s : Schema) (ref : IR) : Except IErr Val :=
  match ref with
  | .pathCombination _ ps =>
    (match collectConcepts ps with
     | .error e => .error e
     | .ok cs => .ok (s.nca cs))
  | r => conceptOfNode r

/-- The owning link of a `LinkPropRefSimple`'s `ref` (utils.py:125-129). -/
def linkFromRef (s : Schema) (ref : IR) : Except IErr Val :=
  match ref with
  | .pathCombination _ ps =>
    (match collectLinkProtos ps with
     | .error e => .error e
     | .ok cs => .ok (s.nca cs))
  | r => linkProtoOfNode r

/-- `infer_type(ir, schema)` (utils.py:103-212).  Every returning branch
passes through the result-shape assertion `chk`; raising branches
propagate their error.  A `PathCombination`'s representative member
(`next(iter(ir.paths))`) is modelled as the head of the member list. -/
def infer_type (s : Schema) : IR → Except IErr (Option Val)
  | .metaRef _ => chk (some (s.get "std::str"))
  | .atomicRefSimple ref nm _ =>
    (match conceptFromRef s ref with
     | .error e => .error e
     | .ok concept =>
       match s.resolvePointer concept nm with
       | none => .error .lookupErr
       | some tgt => chk (some tgt))
  | .linkPropRefSimple ref nm =>
    (match linkFromRef s ref with
     | .error e => .error e
     | .ok link =>
       match s.getptr link nm with
       | none => .error .propAssert
       | some tgt => chk (some tgt))
  | .atomicRefExpr e =>
    (match infer_type s e with
     | .error er => .error er
     | .ok r => chk r)
  | .linkPropRefExpr e =>
    (match infer_type s e with
     | .error er => .error er
     | .ok r => chk r)
  | .record c _ => chk (some c)
  | .functionCall nm _ _ _ _ => chk (some (s.funcRet nm))
  | .constant _ (some e) _ =>
    (match infer_type s e with
     | .error er => .error er
     | .ok r => chk r)
  | .constant _ none t => chk t
  | .binOp op l r =>
    if op.isComparison || op.isTypeCheck || op.isMembership then
      chk (some (s.get "std::bool"))
    else
      match infer_type s l with
      | .error e => .error e
      | .ok lt =>
        match infer_type s r with
        | .error e => .error e
        | .ok rt =>
          chk (match s.rules (op, false) [lt, rt] with
               | some t => some t
               | none => s.rules (op, true) [rt, lt])
  | .unaryOp op e =>
    (match infer_type s e with
     | .error er => .error er
     | .ok et => chk (s.rules (op, false) [et]))
  | .entitySet c _ _ => chk (some c)
  | .pathCombination _ [] => chk none
  | .pathCombination _ (p :: _) =>
    (match infer_type s p with
     | .error er => .error er
     | .ok r => chk r)
  | .typeCast _ maintype subtypes =>
    (match subtypes with
     | [] => chk (some (s.get maintype))
     | _ => chk (some (.collOf maintype (subtypes.map s.get))))
  | .graphExpr _ [e] _ _ _ =>
    (match infer_type s e with
     | .error er => .error er
     | .ok r => chk r)
  | .graphExpr _ _ _ _ _ => chk none
  | .subgraphRef r =>
    (match infer_type s r with
     | .error er => .error er
     | .ok res => chk res)
  | .existPred _ => chk (some (s.get "std::bool"))
  | .entityLink _ _ _ => chk none
  | .inlineFilter _ _ => chk none
  | .inlinePropFilter _ _ => chk none
  | .noneTest _ => chk none
  | .sequence _ => chk none

def IR.isConstant : IR → Bool
  | .constant _ _ _ => true
  | _ => false

/-- `.index` of a Constant node (`none` for any other node, whose `.index`
read is not reached: the scan only selects BinOps with a Constant side). -/
def IR.indexOf : IR → Option Nat
  | .constant i _ _ => i
  | _ => none

mutual
/-- `ast.find_children(ir, flt)` with
`flt = BinOp whose left or right operand is a Constant` (utils.py:41-46):
scans the tree and collects every matching binary operator, in
left-to-right traversal order. -/
def findBinOps : IR → List (Op × IR × IR)
  | .metaRef _ => []
  | .atomicRefSimple ref _ _ => findBinOps ref
  | .atomicRefExpr e => findBinOps e
  | .linkPropRefSimple ref _ => findBinOps ref
  | .linkPropRefExpr e => findBinOps e
  | .inlineFilter ref e => findBinOps ref ++ findBinOps e
  | .inlinePropFilter ref e => findBinOps ref ++ findBinOps e
  | .record _ els => findBinOpsList els
  | .functionCall _ args srt fl part =>
      findBinOpsList args ++ findBinOpsList srt ++ findBinOpsOpt fl ++
      findBinOpsList part
  | .constant _ ce _ => findBinOpsOpt ce
  | .binOp op l r =>
      (if l.isConstant || r.isConstant then [(op, l, r)] else []) ++
      findBinOps l ++ findBinOps r
  | .unaryOp _ e => findBinOps e
  | .entitySet _ _ rl => findBinOpsOpt rl
  | .entityLink _ src _ => findBinOpsOpt src
  | .pathCombination _ ps => findBinOpsList ps
  | .typeCast e _ _ => findBinOps e
  | .graphExpr g sel grp srt so =>
      findBinOpsOpt g ++ findBinOpsList sel ++ findBinOpsList grp ++
      findBinOpsList srt ++
      (match so with
       | none => []
       | some (a, b) => findBinOps a ++ findBinOps b)
  | .subgraphRef r => findBinOps r
  | .existPred e => findBinOps e
  | .noneTest e => findBinOps e
  | .sequence els => findBinOpsList els

def findBinOpsList : List IR → List (Op × IR × IR)
  | [] => []
  | e :: rest => findBinOps e ++ findBinOpsList rest

def findBinOpsOpt : Option IR → List (Op × IR × IR)
  | none => []
  | some e => findBinOps e
end

/-- Errors raised by `infer_arg_types`. -/
inductive AErr where
  | unsupportedOp          -- "unsupported operator" (utils.py:81-84)
  | noType                 -- "cannot infer expr type" (utils.py:86-88)
  | ambiguous (t1 t2 : Val)  -- "ambiguous resolution" (utils.py:94-98)
  | inferErr (e : IErr)    -- an error propagated out of `infer_type`
deriving DecidableEq

/-- One iteration of the `for binop in ops` loop body of `infer_arg_types`
(utils.py:50-88), up to the `arg_types` bookkeeping: pick the constant
side as `arg` (preferring the right operand) and the other side as
`expr`, skip a constant with no parameter index (`.ok none`), then infer
this occurrence's type by the operator's class.  The `typ is None` check
can only fire for the comparison/arithmetic branch — every other branch
constructs a non-null type. -/
def argTypeOfBinOp (s : Schema) (op : Op) (l r : IR) :
    Except AErr (Option (Nat × Val)) :=
  let expr := if r.isConstant then l else r
  let arg := if r.isConstant then r else l
  let rev := !r.isConstant
  match arg.indexOf with
  | none => .ok none
  | some idx =>
    let typE : Except AErr Val :=
      if op.isMatch then .ok (s.get "std::str")
      else if op.isComparison || op.isArith then
        match infer_type s expr with
        | .error e => .error (.inferErr e)
        | .ok none => .error .noType
        | .ok (some t) => .ok t
      else if op.isMembership && !rev then
        match infer_type s expr with
        | .error e => .error (.inferErr e)
        | .ok et => .ok (.setOf et)
      else if op.isBoolean then .ok (s.get "std::bool")
      else .error .unsupportedOp
    match typE with
    | .error e => .error e
    | .ok t => .ok (some (idx, t))

/-- The `arg_types` accumulation loop of `infer_arg_types` (utils.py:90-98):
a first occurrence of an index records its type; a later occurrence with
a different type raises the "ambiguous resolution" error. -/
def processBinOps (s : Schema) :
    List (Op × IR × IR) → List (Nat × Val) → Except AErr (List (Nat × Val))
  | [], acc => .ok acc
  | (op, l, r) :: rest, acc =>
    match argTypeOfBinOp s op l r with
    | .error e => .error e
    | .ok none => processBinOps s rest acc
    | .ok (some (idx, t)) =>
      match acc.lookup idx with
      | none => processBinOps s rest ((idx, t) :: acc)
      | some existing =>
        if existing = t then processBinOps s rest acc
        else .error (.ambiguous existing t)

/-- `infer_arg_types(ir, schema)` (utils.py:40-100). -/
def infer_arg_types (s : Schema) (ir : IR) : Except AErr (List (Nat × Val)) :=
  processBinOps s (findBinOps ir) []

/-! ## `PathIndex` and `extract_prefixes` (utils.py:20-37, 509-586)

The `PathIndex` maps a path-identity key to the set of nodes recorded
under it (an association list of lists here; Python's set-of-nodes
deduplication is by object identity, which structural equality models
when distinct nodes carry distinct labels).  The `get_id()` path identity
of an `EntitySet`/`AtomicRefSimple` is carried as the node's `idOf`
field (the method itself lives in the external `irast` module). -/

def PathIndex := List (String × List IR)

/-- `prefixes[key] = {expr}` for a missing key, `prefixes[key].add(expr)`
for a present one (utils.py:521-524 with `PathIndex.__setitem__`). -/
def pidxAdd : PathIndex → String → IR → PathIndex
  | [], k, e => [(k, [e])]
  | (k2, v) :: rest, k, e =>
    if k2 = k then (k2, e :: v) :: rest else (k2, v) :: pidxAdd rest k e

mutual
/-- `extract_prefixes(expr, prefixes)` (utils.py:509-586).  The mutated
`prefixes` index is threaded explicitly; `none` models the fatal
`assert False` on an unrecognized variant (and the crash of recursing
into a missing link endpoint). -/
def extract_prefixes : IR → PathIndex → Option PathIndex
  | .pathCombination _ ps, px => extractPrefixesList ps px
  | .entitySet c idOf none, px =>
    some (match idOf with
          | some key => pidxAdd px key (.entitySet c idOf none)
          | none => px)
  | .entitySet c idOf (some (.entityLink lp (some src) tgt)), px =>
    extract_prefixes src
      (match idOf with
       | some key =>
         pidxAdd px key (.entitySet c idOf (some (.entityLink lp (some src) tgt)))
       | none => px)
  | .entitySet _ _ (some _), _ => none
  | .atomicRefSimple ref nm idOf, px =>
    extract_prefixes ref
      (match idOf with
       | some key => pidxAdd px key (.atomicRefSimple ref nm idOf)
       | none => px)
  | .entityLink _ _ (some tgt), px => extract_prefixes tgt px
  | .entityLink _ (some src) none, px => extract_prefixes src px
  | .entityLink _ none none, _ => none
  | .linkPropRefSimple ref _, px => extract_prefixes ref px
  | .binOp _ l r, px =>
    (match extract_prefixes l px with
     | some px2 => extract_prefixes r px2
     | none => none)
  | .unaryOp _ e, px => extract_prefixes e px
  | .existPred e, px => extract_prefixes e px
  | .inlineFilter ref e, px =>
    (match extract_prefixes ref px with
     | some px2 => extract_prefixes e px2
     | none => none)
  | .inlinePropFilter ref e, px =>
    (match extract_prefixes ref px with
     | some px2 => extract_prefixes e px2
     | none => none)
  | .atomicRefExpr e, px => extract_prefixes e px
  | .linkPropRefExpr e, px => extract_prefixes e px
  | .functionCall _ args srt fl part, px =>
    (match extractPrefixesList args px with
     | none => none
     | some px2 =>
       match extractPrefixesList srt px2 with
       | none => none
       | some px3 =>
         match (match fl with
                | none => some px3
                | some f => extract_prefixes f px3) with
         | none => none
         | some px4 => extractPrefixesList part px4)
  | .typeCast e _ _, px => extract_prefixes e px
  | .noneTest e, px => extract_prefixes e px
  | .sequence els, px => extractPrefixesList els px
  | .record _ els, px => extractPrefixesList els px
  | .constant _ _ _, px => some px
  | .graphExpr _ _ _ _ _, px => some px
  | .subgraphRef r, px => extract_prefixes r px
  | .metaRef _, _ => none

def extractPrefixesList : List IR → PathIndex → Option PathIndex
  | [], px => some px
  | e :: rest, px =>
    match extract_prefixes e px with
    | some px2 => extractPrefixesList rest px2
    | none => none
end

mutual
/-- Well-typedness of the IR values that can flow into an inference result
(spec §3: "Type inference must always resolve to a schema type handle
(or a 2-element result with a type handle in position 1)"): every type
annotation embedded in the tree (a Constant's declared type, a Record's
or EntitySet's concept) satisfies the result-shape condition. -/
def goodIR : IR → Bool
  | .metaRef _ => true
  | .atomicRefSimple ref _ _ => goodIR ref
  | .atomicRefExpr e => goodIR e
  | .linkPropRefSimple ref _ => goodIR ref
  | .linkPropRefExpr e => goodIR e
  | .inlineFilter ref e => goodIR ref && goodIR e
  | .inlinePropFilter ref e => goodIR ref && goodIR e
  | .record c els => assertOk c && goodIRList els
  | .functionCall _ args srt fl part =>
      goodIRList args && goodIRList srt && goodIROpt fl && goodIRList part
  | .constant _ ce t =>
      (match t with
       | none => true
       | some v => assertOk v) && goodIROpt ce
  | .binOp _ l r => goodIR l && goodIR r
  | .unaryOp _ e => goodIR e
  | .entitySet c _ rl => assertOk c && goodIROpt rl
  | .entityLink _ src tgt => goodIROpt src && goodIROpt tgt
  | .pathCombination _ ps => goodIRList ps
  | .typeCast e _ _ => goodIR e
  | .graphExpr g sel grp srt so =>
      goodIROpt g && goodIRList sel && goodIRList grp && goodIRList srt &&
      (match so with
       | none => true
       | some (a, b) => goodIR a && goodIR b)
  | .subgraphRef r => goodIR r
  | .existPred e => goodIR e
  | .noneTest e => goodIR e
  | .sequence els => goodIRList els

def goodIRList : List IR → Bool
  | [] => true
  | e :: rest => goodIR e && goodIRList rest

def goodIROpt : Option IR → Bool
  | none => true
  | some e => goodIR e
end

/-- Well-typedness of the schema catalog (spec §6 boundary contract): every
type handle the catalog hands back satisfies the result-shape condition. -/
def Schema.good (s : Schema) : Prop :=
  (∀ n, assertOk (s.get n) = true) ∧
  (∀ c n v, s.resolvePointer c n = some v → assertOk v = true) ∧
  (∀ c n v, s.getptr c n = some v → assertOk v = true) ∧
  (∀ l, assertOk (s.nca l) = true) ∧
  (∀ k ts v, s.rules k ts = some v → assertOk v = true) ∧
  (∀ n, assertOk (s.funcRet n) = true)

/-- The empty set store. -/
def emptyStore : SetStore := fun _ => []

/-- An operator with no special operator-class membership. -/
def op0 : Op := ⟨0, false, false, false, false, false, false⟩

/-- An empty rule table slice. -/
def noRules : List (Option Val) → Option Val := fun _ => none

/-- A schema whose type-rule table has exactly one rule for `op0`, registered
under the `(op0, 'reversed')` key for operand types `(int, str)`. -/
def sX : Schema where
  get := fun _ => .proto "t"
  resolvePointer := fun _ _ => none
  getptr := fun _ _ => none
  nca := fun _ => .proto "t"
  rules := fun k =>
    match k with
    | (o, true) => fun tys =>
        if o = op0 ∧ tys = [some (.proto "int"), some (.proto "str")] then
          some (.proto "T")
        else none
    | (_, false) => noRules
  funcRet := fun _ => .proto "t"

/-- The per-occurrence contribution of a scanned binary operator to the
`infer_arg_types` result: its parameter index and inferred type, when the
occurrence carries an indexed constant and its type computes. -/
def occOf (s : Schema) (e : Op × IR × IR) : Option (Nat × Val) :=
  match argTypeOfBinOp s e.1 e.2.1 e.2.2 with
  | .ok (some p) => some p
  | _ => none

/-- All (parameter index, inferred type) occurrences of a tree, in the scan
order of `infer_arg_types`. -/
def occList (s : Schema) (ir : IR) : List (Nat × Val) :=
  (findBinOps ir).filterMap (occOf s)

/-- Claim C8 witness material: two comparison operators, a boolean
conjunction, a schema resolving `Person.age` to `std::int` and
`Person.name` to `std::str`, and the tree `age > $0 AND name = $0`. -/
def opGT : Op := ⟨1, false, true, false, false, false, false⟩
def opEQ : Op := ⟨2, false, true, false, false, false, false⟩
def opAND : Op := ⟨3, false, false, false, false, false, true⟩

def sW : Schema where
  get := fun n => .proto n
  resolvePointer := fun c n =>
    match c, n with
    | .proto "Person", "age" => some (.proto "std::int")
    | .proto "Person", "name" => some (.proto "std::str")
    | _, _ => none
  getptr := fun _ _ => none
  nca := fun _ => .proto "t"
  rules := fun _ _ => none
  funcRet := fun _ => .proto "t"

def personAge : IR := .atomicRefSimple (.entitySet (.proto "Person") none none) "age" none
def personName : IR := .atomicRefSimple (.entitySet (.proto "Person") none none) "name" none
def treeW : IR :=
  .binOp opAND (.binOp opGT personAge (.constant (some 0) none none))
               (.binOp opEQ personName (.constant (some 0) none none))

/-! ## Theorems -/

@[simp] theorem flattenMembers_nil (r : Bool) (k : CombKind) :
    flattenMembers r k [] = [] := by
  rw [flattenMembers.eq_def]

@[simp] theorem flattenMembers_cons_atom (r : Bool) (k : CombKind) (i : Nat)
    (rest : List PPath) :
    flattenMembers r k (.atom i :: rest) = .atom i :: flattenMembers r k rest := by
  rw [flattenMembers.eq_def]; rfl

@[simp] theorem flattenMembers_cons_comb (r : Bool) (k k2 : CombKind)
    (qs rest : List PPath) :
    flattenMembers r k (.comb k2 qs :: rest) =
      (if k2 = k ∨ r = true then
        if r = true then (flattenMembers r k2 qs).dedup else qs
       else [.comb k2 qs]) ++ flattenMembers r k rest := by
  rw [flattenMembers.eq_def]

@[simp] theorem atomsIn_atom (i : Nat) : (PPath.atom i).atomsIn = [.atom i] := by
  rw [PPath.atomsIn.eq_def]

@[simp] theorem atomsIn_comb (k : CombKind) (ps : List PPath) :
    (PPath.comb k ps).atomsIn = atomsInList ps := by
  rw [PPath.atomsIn.eq_def]

@[simp] theorem atomsInList_nil : atomsInList [] = [] := by
  rw [atomsInList.eq_def]

@[simp] theorem atomsInList_cons (p : PPath) (rest : List PPath) :
    atomsInList (p :: rest) = p.atomsIn ++ atomsInList rest := by
  rw [atomsInList.eq_def]

theorem mem_flattenMembers_false {x : PPath} (k : CombKind) (l : List PPath) :
    x ∈ flattenMembers false k l ↔
      (∃ qs, PPath.comb k qs ∈ l ∧ x ∈ qs) ∨ (x ∈ l ∧ x.isCombOf k = false) := by
  induction l with
  | nil => simp
  | cons p rest ih =>
    cases p with
    | atom i =>
      simp only [flattenMembers_cons_atom, List.mem_cons, ih]
      constructor
      · rintro (h | (⟨qs, hq, hx⟩ | ⟨hx, hc⟩))
        · exact Or.inr ⟨Or.inl h, by subst h; rfl⟩
        · exact Or.inl ⟨qs, Or.inr hq, hx⟩
        · exact Or.inr ⟨Or.inr hx, hc⟩
      · rintro (⟨qs, (hq | hq), hx⟩ | ⟨(hx | hx), hc⟩)
        · exact absurd hq (by simp)
        · exact Or.inr (Or.inl ⟨qs, hq, hx⟩)
        · exact Or.inl hx
        · exact Or.inr (Or.inr ⟨hx, hc⟩)
    | comb k2 qs =>
      by_cases hk : k2 = k
      · subst hk
        rw [flattenMembers_cons_comb]
        simp only [if_pos (Or.inl rfl), Bool.false_eq_true, if_false, List.mem_append, ih,
          List.mem_cons]
        constructor
        · rintro (h | (⟨qs2, hq, hx⟩ | ⟨hx, hc⟩))
          · exact Or.inl ⟨qs, Or.inl rfl, h⟩
          · exact Or.inl ⟨qs2, Or.inr hq, hx⟩
          · exact Or.inr ⟨Or.inr hx, hc⟩
        · rintro (⟨qs2, (hq | hq), hx⟩ | ⟨(hx | hx), hc⟩)
          · cases hq; exact Or.inl hx
          · exact Or.inr (Or.inl ⟨qs2, hq, hx⟩)
          · subst hx; simp [PPath.isCombOf] at hc
          · exact Or.inr (Or.inr ⟨hx, hc⟩)
      · rw [flattenMembers_cons_comb, if_neg (by simp [hk])]
        simp only [List.mem_append, ih, List.mem_singleton, List.mem_cons,
          List.not_mem_nil, or_false]
        constructor
        · rintro (h | (⟨qs2, hq, hx⟩ | ⟨hx, hc⟩))
          · subst h; exact Or.inr ⟨Or.inl rfl, by simp [PPath.isCombOf, hk]⟩
          · exact Or.inl ⟨qs2, Or.inr hq, hx⟩
          · exact Or.inr ⟨Or.inr hx, hc⟩
        · rintro (⟨qs2, (hq | hq), hx⟩ | ⟨(hx | hx), hc⟩)
          · exact absurd hq.symm (by simp [hk])
          · exact Or.inr (Or.inl ⟨qs2, hq, hx⟩)
          · exact Or.inl hx
          · exact Or.inr (Or.inr ⟨hx, hc⟩)

theorem mem_flattenMembers_true {x : PPath} (k : CombKind) (l : List PPath) :
    x ∈ flattenMembers true k l ↔ x ∈ atomsInList l := by
  induction k, l using flattenMembers.induct true with
  | case1 k => simp
  | case2 k p rest ihp ihrest =>
    cases p with
    | atom i => simp [ihrest]
    | comb k2 qs =>
      have ihp2 : x ∈ flattenMembers true k2 qs ↔ x ∈ atomsInList qs := ihp
      rw [flattenMembers_cons_comb, if_pos (Or.inr rfl), if_pos rfl]
      simp only [List.mem_append, List.mem_dedup, ihp2, ihrest, atomsInList_cons, atomsIn_comb]

theorem atomsInList_isAtom {x : PPath} (l : List PPath) (h : x ∈ atomsInList l) :
    x.isAtom = true := by
  induction l using atomsInList.induct
      (motive_1 := fun p => x ∈ p.atomsIn → x.isAtom = true) with
  | case1 i =>
    rename_i hx
    simp at hx; subst hx; rfl
  | case2 k2 qs ih =>
    rename_i hx
    rw [atomsIn_comb] at hx; exact ih hx
  | case3 => simp at h
  | case4 p rest ihp ihrest =>
    rw [atomsInList_cons] at h
    rcases List.mem_append.mp h with h1 | h2
    · exact ihp h1
    · exact ihrest h2

theorem flattenMembers_of_atoms {l : List PPath} (r : Bool) (k : CombKind)
    (h : ∀ p ∈ l, p.isAtom = true) : flattenMembers r k l = l := by
  induction l with
  | nil => simp
  | cons p rest ih =>
    cases p with
    | atom i => rw [flattenMembers_cons_atom, ih (fun q hq => h q (List.mem_cons_of_mem _ hq))]
    | comb k2 qs => exact absurd (h _ (List.mem_cons_self _ _)) (by simp [PPath.isAtom])

theorem flattenMembers_false_no_sameclass {l : List PPath} (k : CombKind)
    (h : ∀ p ∈ l, p.isCombOf k = false) : flattenMembers false k l = l := by
  induction l with
  | nil => simp
  | cons p rest ih =>
    cases p with
    | atom i => rw [flattenMembers_cons_atom, ih (fun q hq => h q (List.mem_cons_of_mem _ hq))]
    | comb k2 qs =>
      have hk : ¬ k2 = k := by
        intro hkk; subst hkk
        have := h _ (List.mem_cons_self _ _)
        simp [PPath.isCombOf] at this
      rw [flattenMembers_cons_comb, if_neg (by simp [hk]),
        ih (fun q hq => h q (List.mem_cons_of_mem _ hq))]
      rfl

/-- Claim C2 (amended): with `recursive=False`, `flatten_path_combination`
replaces each direct member of the same combination class by that
member's own members and keeps every other member (opposite-class
combinations included) intact, preserving the combination class; with
`recursive=True`, however, every nested combination — of either class —
is recursively dissolved, so the member set becomes exactly the plain
paths reachable inside the original members. -/
theorem flatten_path_combination_amended (k : CombKind) (ps : List PPath) (x : PPath) :
    (x ∈ (flatten_path_combination (.comb k ps) false).members ↔
      (∃ qs, PPath.comb k qs ∈ ps ∧ x ∈ qs) ∨ (x ∈ ps ∧ x.isCombOf k = false)) ∧
    (x ∈ (flatten_path_combination (.comb k ps) true).members ↔ x ∈ atomsInList ps) ∧
    (∀ r, (flatten_path_combination (.comb k ps) r).kindOf = some k) := by
  refine ⟨?_, ?_, fun r => rfl⟩
  · simp only [flatten_path_combination, PPath.members, List.mem_dedup,
      mem_flattenMembers_false]
  · simp only [flatten_path_combination, PPath.members, List.mem_dedup,
      mem_flattenMembers_true]

/-- Claim C2 counterexample: flattening a Disjunction whose sole member is a
Conjunction with `recursive=True` absorbs the Conjunction's members into
the Disjunction instead of keeping the opposite-class member intact as a
single element, contradicting the claim. -/
theorem flatten_recursive_dissolves_opposite_cex :
    flatten_path_combination
        (.comb .disjunction [.comb .conjunction [.atom 0, .atom 1]]) true
      = .comb .disjunction [.atom 0, .atom 1] ∧
    PPath.comb .conjunction [.atom 0, .atom 1] ∉
      (flatten_path_combination
        (.comb .disjunction [.comb .conjunction [.atom 0, .atom 1]]) true).members := by
  constructor
  · simp [flatten_path_combination, List.dedup_cons_of_not_mem]
  · simp [flatten_path_combination, PPath.members, List.dedup_cons_of_not_mem]

/-- Claim C6 (amended): recursive flattening is idempotent, and
non-recursive flattening of a combination with no same-class members
leaves the member set unchanged.  (Non-recursive flattening of an
arbitrary combination is not idempotent — see the counterexample.) -/
theorem flatten_idempotent_amended :
    (∀ x : PPath,
      flatten_path_combination (flatten_path_combination x true) true
        = flatten_path_combination x true) ∧
    (∀ (k : CombKind) (ps : List PPath), (∀ p ∈ ps, p.isCombOf k = false) →
      ((flatten_path_combination (.comb k ps) false).members).toFinset = ps.toFinset) := by
  constructor
  · intro x
    cases x with
    | atom i => rfl
    | comb k ps =>
      have hAtoms : ∀ p ∈ List.dedup (flattenMembers true k ps), p.isAtom = true :=
        fun p hp =>
          atomsInList_isAtom _ ((mem_flattenMembers_true k ps).mp (List.mem_dedup.mp hp))
      show PPath.comb k
          (List.dedup (flattenMembers true k (List.dedup (flattenMembers true k ps))))
        = PPath.comb k (List.dedup (flattenMembers true k ps))
      rw [flattenMembers_of_atoms true k hAtoms, List.dedup_idem]
  · intro k ps h
    show (List.dedup (flattenMembers false k ps)).toFinset = ps.toFinset
    rw [flattenMembers_false_no_sameclass k h]
    ext a
    simp [List.mem_toFinset, List.mem_dedup]

/-- Claim C6 counterexample: non-recursive flattening is not idempotent —
on `D[D[D[a]]]` one application yields member set `{D[a]}` while a
second yields `{a}`, so `flatten(flatten(x)) ≠ flatten(x)` for
`recursive=False`. -/
theorem flatten_nonrecursive_not_idempotent_cex :
    PPath.atom 0 ∈
      (flatten_path_combination
        (flatten_path_combination
          (.comb .disjunction [.comb .disjunction [.comb .disjunction [.atom 0]]])
          false)
        false).members ∧
    PPath.atom 0 ∉
      (flatten_path_combination
        (.comb .disjunction [.comb .disjunction [.comb .disjunction [.atom 0]]])
        false).members := by
  constructor
  · simp [flatten_path_combination, PPath.members]
  · simp [flatten_path_combination, PPath.members]

/-- Claim C6 witness: non-recursive flattening of an already-flat
combination (an atom and an opposite-class member) keeps its member set. -/
theorem flatten_idempotent_amended_witness :
    ((flatten_path_combination
        (.comb .disjunction [.atom 0, .comb .conjunction [.atom 1]]) false).members).toFinset
      = [PPath.atom 0, PPath.comb .conjunction [.atom 1]].toFinset :=
  flatten_idempotent_amended.2 .disjunction [.atom 0, .comb .conjunction [.atom 1]]
    (by intro p hp
        rcases List.mem_cons.mp hp with rfl | hp2
        · rfl
        · rcases List.mem_cons.mp hp2 with rfl | hp3
          · rfl
          · simp at hp3)

/-- Claim C7: on a duplicate-free set of plain (non-combination) paths,
`combine_field_results` yields no contribution for zero results, the
single result itself (unwrapped) for one, and for N>1 a combination of
the given class whose member set has exactly N elements after the
non-recursive flatten. -/
theorem combine_field_results_collapse (k : CombKind) (results : List PPath)
    (hnd : results.Nodup) (hat : ∀ p ∈ results, p.isAtom = true) :
    (results = [] → combine_field_results k true results = none) ∧
    (∀ p, results = [p] → combine_field_results k true results = some p) ∧
    (2 ≤ results.length →
      combine_field_results k true results = some (.comb k results) ∧
      results.toFinset.card = results.length) := by
  have hd : results.dedup = results := List.dedup_eq_self.mpr hnd
  refine ⟨?_, ?_, ?_⟩
  · rintro rfl; simp [combine_field_results]
  · rintro p rfl; simp [combine_field_results]
  · intro h2
    refine ⟨?_, List.toFinset_card_of_nodup hnd⟩
    show (if (List.dedup results).length = 1 then (List.dedup results).head?
          else if (List.dedup results).length = 0 then none
          else if true then
            some (flatten_path_combination (.comb k (List.dedup results)) false)
          else some (.comb k (List.dedup results)))
        = some (.comb k results)
    rw [hd, if_neg (by omega), if_neg (by omega), if_pos rfl]
    show some (PPath.comb k (List.dedup (flattenMembers false k results))) = _
    rw [flattenMembers_of_atoms false k hat, hd]

/-- Claim C7 witness: combining two distinct plain paths yields a
two-element Disjunction. -/
theorem combine_field_results_collapse_witness :
    combine_field_results .disjunction true [.atom 0, .atom 1]
      = some (.comb .disjunction [.atom 0, .atom 1]) ∧
    ([PPath.atom 0, .atom 1].toFinset.card = 2) :=
  (combine_field_results_collapse .disjunction [.atom 0, .atom 1]
    (by simp)
    (by intro p hp; rcases List.mem_cons.mp hp with rfl | hp2
        · rfl
        · rcases List.mem_cons.mp hp2 with rfl | hp3
          · rfl
          · simp at hp3)).2.2 (by simp)
theorem RChain.fragments_length (c : RChain) : c.fragments.length = c.lengthOf := by
  induction c with
  | root l => rfl
  | link l p ih => simp [RChain.fragments, RChain.lengthOf, ih]

theorem RChain.lengthOf_pos (c : RChain) : 1 ≤ c.lengthOf := by
  cases c <;> simp [RChain.lengthOf]

theorem RChain.fragments_getLastD (c : RChain) (d : RChain) :
    c.fragments.getLastD d = c.rootOf := by
  induction c generalizing d with
  | root l => rfl
  | link l p ih =>
    show (RChain.link l p :: p.fragments).getLastD d = p.rootOf
    rw [List.getLastD_cons]
    exact ih _

theorem RChain.fragments_head (c : RChain) : c.fragments.head? = some c := by
  cases c <;> rfl

/-- Claim C3 (amended): reverse-mode `visit_EntitySet` walks `rlink.source`
to the root and returns the root alone — except that when
`all_fragments` is set and the chain has more than one node, it returns
a Disjunction of ALL fragments of the single chain (the visited node,
every intermediate ancestor, and the root), not of "all roots".  For a
`Person -> owns -> Pet` chain, reverse extraction from the `Pet` leaf
returns the `Person` root. -/
theorem visit_entityset_reverse_amended (af : Bool) (c : RChain) :
    visit_EntitySet true af c =
      (if af = true ∧ 2 ≤ c.fragments.length then .disjunctionOf c.fragments
       else .single c.rootOf) ∧
    c.fragments.head? = some c ∧
    c.fragments.getLastD c = c.rootOf ∧
    visit_EntitySet true false (.link 1 (.root 0)) = .single (.root 0) := by
  refine ⟨?_, RChain.fragments_head c, RChain.fragments_getLastD c c, by decide⟩
  show (if c.fragments.length = 1 ∨ ¬(af = true) then
          VisitResult.single (c.fragments.getLastD c)
        else .disjunctionOf c.fragments) = _
  have hpos : 1 ≤ c.fragments.length := by
    rw [RChain.fragments_length]; exact RChain.lengthOf_pos c
  by_cases haf : af = true
  · by_cases hlen : c.fragments.length = 1
    · rw [if_pos (Or.inl hlen), if_neg (by omega), RChain.fragments_getLastD]
    · rw [if_neg (by simp [hlen, haf]), if_pos ⟨haf, by omega⟩]
  · rw [if_pos (Or.inr haf), if_neg (by simp [haf]), RChain.fragments_getLastD]

/-- Claim C3 counterexample: on a two-node chain there is a single root, so
by the claim the result should be that root alone even under
`all_fragments`; the code instead returns a Disjunction containing both
the leaf and the root. -/
theorem visit_entityset_all_fragments_cex :
    visit_EntitySet true true (.link 1 (.root 0)) =
      .disjunctionOf [.link 1 (.root 0), .root 0] ∧
    VisitResult.disjunctionOf [RChain.link 1 (.root 0), .root 0] ≠
      VisitResult.single (.root 0) := by
  exact ⟨by decide, by decide⟩

/-- Claim C10: `extract_prefixes` leaves the prefix index completely
unchanged on a full query expression (`GraphExpr`) and on a `Constant`,
while an unrecognized variant (here `MetaRef`) aborts with the fatal
internal assertion. -/
theorem extract_prefixes_frame (g : Option IR) (sel grp srt : List IR)
    (so : Option (IR × IR)) (i : Option Nat) (ce : Option IR) (t : Option Val)
    (nm : String) (px px2 px3 : PathIndex) :
    extract_prefixes (.graphExpr g sel grp srt so) px = some px ∧
    extract_prefixes (.constant i ce t) px2 = some px2 ∧
    extract_prefixes (.metaRef nm) px3 = none := by
  exact ⟨rfl, rfl, rfl⟩
theorem eqPairs_even_iff : ∀ (xs ys : List PElem), xs.length = ys.length →
    xs.length % 2 = 0 → (eqPairs xs ys = true ↔ xs = ys)
  | [], [], _, _ => by simp [eqPairs]
  | [], _ :: _, h, _ => by simp at h
  | _ :: _, [], h, _ => by simp at h
  | [_], [_], _, hpar => by simp at hpar
  | _ :: _ :: _, [_], h, _ => by simp at h
  | [_], _ :: _ :: _, h, _ => by simp at h
  | a :: b :: xs, c :: d :: ys, h, hpar => by
    have h2 : xs.length = ys.length := by simpa using h
    have hp2 : xs.length % 2 = 0 := by
      simp only [List.length_cons] at hpar
      omega
    have ih := eqPairs_even_iff xs ys h2 hp2
    show (if a ≠ c then false
          else if b ≠ d then false
          else eqPairs xs ys) = true ↔ _
    by_cases hac : a = c
    · by_cases hbd : b = d
      · subst hac; subst hbd
        simp only [ne_eq, not_true_eq_false, if_false, ih, List.cons.injEq, true_and]
      · simp [hac, hbd]
    · simp [hac]

theorem eqPairs_odd_iff : ∀ (xs ys : List PElem), xs.length = ys.length →
    xs.length % 2 = 1 → (eqPairs xs ys = true ↔ xs.dropLast = ys.dropLast)
  | [], [], _, hpar => by simp at hpar
  | [], _ :: _, h, _ => by simp at h
  | _ :: _, [], h, _ => by simp at h
  | [_], [_], _, _ => by simp [eqPairs]
  | _ :: _ :: _, [_], h, _ => by simp at h
  | [_], _ :: _ :: _, h, _ => by simp at h
  | a :: b :: xs, c :: d :: ys, h, hpar => by
    have h2 : xs.length = ys.length := by simpa using h
    have hp2 : xs.length % 2 = 1 := by
      simp only [List.length_cons] at hpar
      omega
    have hxs : xs ≠ [] := by
      intro he; rw [he] at hp2; simp at hp2
    have hys : ys ≠ [] := by
      intro he; rw [he] at h2; exact hxs (List.length_eq_zero.mp h2)
    have ih := eqPairs_odd_iff xs ys h2 hp2
    show (if a ≠ c then false
          else if b ≠ d then false
          else eqPairs xs ys) = true ↔ _
    rw [List.dropLast_cons₂, List.dropLast_cons₂]
    have hbx : (b :: xs).dropLast = b :: xs.dropLast := by
      cases xs with
      | nil => exact absurd rfl hxs
      | cons u us => rw [List.dropLast_cons₂]
    have hdy : (d :: ys).dropLast = d :: ys.dropLast := by
      cases ys with
      | nil => exact absurd rfl hys
      | cons u us => rw [List.dropLast_cons₂]
    rw [hbx, hdy]
    by_cases hac : a = c
    · by_cases hbd : b = d
      · subst hac; subst hbd
        simp only [ne_eq, not_true_eq_false, if_false, ih, List.cons.injEq, true_and]
      · simp [hac, hbd]
    · simp [hac]

/-- Claim C5 (amended): `LinearPath.__eq__` requires identical lengths, and
for odd-length (well-formed) paths it holds exactly on full positional
equality; but for even-length paths of length ≥ 2 the final element is
never compared — equality holds exactly on equality of the paths with
the last element dropped.  `LinearPath.add` normalizes a NON-generic
link to its first base (`link.bases[0]`); a generic link is recorded
as itself. -/
theorem linear_path_eq_amended (xs ys : List PElem) :
    (xs.length ≠ ys.length → linearPathEq xs ys = false) ∧
    (xs.length = ys.length → xs.length % 2 = 1 →
      (linearPathEq xs ys = true ↔ xs = ys)) ∧
    (xs.length = ys.length → xs.length % 2 = 0 → 2 ≤ xs.length →
      (linearPathEq xs ys = true ↔ xs.dropLast = ys.dropLast)) ∧
    (∀ (pfx : List PElem) (link : SLink) (dir : Bool) (target : Nat),
      (link.isGeneric = true →
        linearPathAdd pfx link dir target
          = some (pfx ++ [.step link.idOf dir, .nodeT target])) ∧
      (∀ b bs, link.isGeneric = false → link.basesOf = b :: bs →
        linearPathAdd pfx link dir target
          = some (pfx ++ [.step b.idOf dir, .nodeT target]))) := by
  refine ⟨?_, ?_, ?_, ?_⟩
  · intro hne
    simp [linearPathEq, hne]
  · intro hlen hodd
    cases xs with
    | nil => simp at hodd
    | cons x xs2 =>
      cases ys with
      | nil => simp at hlen
      | cons y ys2 =>
        have h2 : xs2.length = ys2.length := by simpa using hlen
        have hp2 : xs2.length % 2 = 0 := by
          simp only [List.length_cons] at hodd
          omega
        show (if (x :: xs2).length ≠ (y :: ys2).length then false
              else if (x :: xs2).length = 0 then true
              else if (x :: xs2).headD (.nodeT 0) ≠ (y :: ys2).headD (.nodeT 0) then false
              else eqPairs xs2 ys2) = true ↔ _
        rw [if_neg (by simp [hlen]), if_neg (by simp)]
        by_cases hxy : x = y
        · subst hxy
          rw [if_neg (by simp)]
          rw [eqPairs_even_iff xs2 ys2 h2 hp2]
          simp
        · rw [if_pos (by simpa using hxy)]
          simp [hxy]
  · intro hlen heven h2le
    cases xs with
    | nil => simp at h2le
    | cons x xs2 =>
      cases ys with
      | nil => simp at hlen
      | cons y ys2 =>
        have h2 : xs2.length = ys2.length := by simpa using hlen
        have hp2 : xs2.length % 2 = 1 := by
          simp only [List.length_cons] at heven
          omega
        have hxs2 : xs2 ≠ [] := by
          intro he; rw [he] at hp2; simp at hp2
        have hys2 : ys2 ≠ [] := by
          intro he; rw [he] at h2; exact hxs2 (List.length_eq_zero.mp h2)
        show (if (x :: xs2).length ≠ (y :: ys2).length then false
              else if (x :: xs2).length = 0 then true
              else if (x :: xs2).headD (.nodeT 0) ≠ (y :: ys2).headD (.nodeT 0) then false
              else eqPairs xs2 ys2) = true ↔ _
        rw [if_neg (by simp [hlen]), if_neg (by simp)]
        have hdx : (x :: xs2).dropLast = x :: xs2.dropLast := by
          cases xs2 with
          | nil => exact absurd rfl hxs2
          | cons u us => rw [List.dropLast_cons₂]
        have hdy : (y :: ys2).dropLast = y :: ys2.dropLast := by
          cases ys2 with
          | nil => exact absurd rfl hys2
          | cons u us => rw [List.dropLast_cons₂]
        rw [hdx, hdy]
        by_cases hxy : x = y
        · subst hxy
          rw [if_neg (by simp)]
          rw [eqPairs_odd_iff xs2 ys2 h2 hp2]
          simp
        · rw [if_pos (by simpa using hxy)]
          simp [hxy]
  · intro pfx link dir target
    constructor
    · intro hg
      simp [linearPathAdd, hg]
    · intro b bs hg hb
      simp [linearPathAdd, hg, hb]

/-- Claim C5 counterexample: two equal-length paths differing only in the
final (never-compared) element test equal, contradicting "equality only
if every element matches pairwise"; and `add` leaves a generic link
as-is while replacing a non-generic link by its base, contradicting
"a generic link is normalized to its topmost base". -/
theorem linear_path_eq_ignores_last_cex :
    linearPathEq [.nodeT 0, .step 1 true] [.nodeT 0, .step 2 true] = true ∧
    [PElem.nodeT 0, .step 1 true] ≠ [PElem.nodeT 0, .step 2 true] ∧
    linearPathAdd [] (.mk 5 true [.mk 9 true []]) true 3
      = some [.step 5 true, .nodeT 3] ∧
    linearPathAdd [] (.mk 5 false [.mk 9 true []]) true 3
      = some [.step 9 true, .nodeT 3] := by
  refine ⟨by decide, by decide, ?_, ?_⟩
  · simp [linearPathAdd, SLink.isGeneric, SLink.idOf]
  · simp [linearPathAdd, SLink.isGeneric, SLink.basesOf, SLink.idOf]

/-- Claim C5 witness: a concrete odd-length path equals itself. -/
theorem linear_path_eq_amended_witness :
    linearPathEq [.nodeT 0, .step 1 true, .nodeT 2] [.nodeT 0, .step 1 true, .nodeT 2]
      = true :=
  ((linear_path_eq_amended [.nodeT 0, .step 1 true, .nodeT 2]
      [.nodeT 0, .step 1 true, .nodeT 2]).2.1 rfl rfl).mpr rfl
theorem copyChain_spec : ∀ (l : List (ELData × ESData)) (c : Nat),
    (copyChain l c).2 = c + 3 * l.length ∧
    ((copyChain l c).1.map fun lp => lp.2.usersId) = (l.map fun lp => lp.2.usersId) ∧
    ((copyChain l c).1.map fun lp => lp.2.joinsId) = (l.map fun lp => lp.2.joinsId) ∧
    (∀ i ∈ chainClonedIds (copyChain l c).1, c ≤ i ∧ i < c + 3 * l.length)
  | [], c => by simp [copyChain, chainClonedIds]
  | (ld, pd) :: rest, c => by
    have ih := copyChain_spec rest (c + 3)
    simp only [copyChain, copyELData, copyESData, chainClonedIds, List.map_cons,
      List.length_cons, List.mem_cons, List.mem_append, List.not_mem_nil, or_false]
    refine ⟨by rw [ih.1]; ring, by rw [ih.2.1], by rw [ih.2.2.1], ?_⟩
    intro i hi
    rcases hi with (rfl | rfl | rfl) | hi
    · omega
    · omega
    · omega
    · have := ih.2.2.2 i hi
      omega

theorem copy_path_clonedIds_fresh (src : CPath) (fresh : Nat) :
    ∀ i ∈ (copy_path src fresh).1.clonedIds, fresh ≤ i := by
  obtain ⟨root, chain⟩ := src
  cases root with
  | entity d =>
    intro i hi
    simp only [copy_path, copyESData, CPath.clonedIds, List.mem_append,
      List.mem_singleton] at hi
    rcases hi with rfl | hi
    · exact le_refl _
    · have := (copyChain_spec chain (fresh + 1)).2.2.2 i hi
      omega
  | ref r =>
    intro i hi
    simp only [copy_path, copyRefData, CPath.clonedIds, List.mem_append,
      List.mem_singleton] at hi
    rcases hi with rfl | hi
    · exact le_refl _
    · have := (copyChain_spec chain (fresh + 1)).2.2.2 i hi
      omega

/-- Claim C1 (amended): the rewrite-flag set of every node copied by
`copy_path` and the user set of every copied link are freshly cloned —
mutating them cannot change any source node's set — but the user and
join sets of every copied entity-set are aliased to the corresponding
source entity-set's sets (assigned without `.copy()` at utils.py:598-599
and 664-665), so the copy does share mutable collections with its
source. -/
theorem copy_path_cloning_amended (src : CPath) (fresh : Nat)
    (hlt : ∀ j ∈ src.collIds, j < fresh) :
    (∀ i ∈ (copy_path src fresh).1.clonedIds, ∀ j ∈ src.collIds, i ≠ j) ∧
    (∀ i ∈ (copy_path src fresh).1.clonedIds, ∀ j ∈ src.collIds,
      ∀ (st : SetStore) (v : Nat), readSet (addToSet st i v) j = readSet st j) ∧
    (copy_path src fresh).1.entityUserIds = src.entityUserIds ∧
    (copy_path src fresh).1.entityJoinIds = src.entityJoinIds := by
  have hne : ∀ i ∈ (copy_path src fresh).1.clonedIds, ∀ j ∈ src.collIds, i ≠ j := by
    intro i hi j hj
    have h1 := copy_path_clonedIds_fresh src fresh i hi
    have h2 := hlt j hj
    omega
  refine ⟨hne, ?_, ?_, ?_⟩
  · intro i hi j hj st v
    have : j ≠ i := fun he => hne i hi j hj he.symm
    simp [readSet, addToSet, this]
  · obtain ⟨root, chain⟩ := src
    cases root with
    | entity d =>
      simp only [copy_path, copyESData, CPath.entityUserIds]
      rw [(copyChain_spec chain (fresh + 1)).2.1]
    | ref r =>
      simp only [copy_path, copyRefData, CPath.entityUserIds]
      rw [(copyChain_spec chain (fresh + 1)).2.1]
  · obtain ⟨root, chain⟩ := src
    cases root with
    | entity d =>
      simp only [copy_path, copyESData, CPath.entityJoinIds]
      rw [(copyChain_spec chain (fresh + 1)).2.2.1]
    | ref r =>
      simp only [copy_path, copyRefData, CPath.entityJoinIds]
      rw [(copyChain_spec chain (fresh + 1)).2.2.1]

/-- Claim C1 witness: a concrete two-node chain whose copy keeps the same
entity user-set identifiers. -/
theorem copy_path_cloning_amended_witness :
    (copy_path ⟨.entity ⟨0, 1, 2, 3, 4⟩, [(⟨5, 6, 7⟩, ⟨8, 9, 10, 11, 12⟩)]⟩ 20).1.entityUserIds
      = (CPath.mk (.entity ⟨0, 1, 2, 3, 4⟩) [(⟨5, 6, 7⟩, ⟨8, 9, 10, 11, 12⟩)]).entityUserIds :=
  (copy_path_cloning_amended ⟨.entity ⟨0, 1, 2, 3, 4⟩, [(⟨5, 6, 7⟩, ⟨8, 9, 10, 11, 12⟩)]⟩ 20
    (by decide)).2.2.1

/-- Claim C1 counterexample: copying a single entity-set keeps the source's
user-set identifier (only `rewrite_flags` gets the fresh identifier 10),
and inserting into that shared set through the copy changes what the
source node reads. -/
theorem copy_path_shares_entity_user_set_cex :
    (copy_path ⟨.entity ⟨0, 0, 0, 1, 2⟩, []⟩ 10).1.root = .entity ⟨0, 0, 0, 1, 10⟩ ∧
    readSet (addToSet emptyStore 0 7) 0 ≠ readSet emptyStore 0 := by
  constructor
  · rfl
  · simp [readSet, addToSet, emptyStore]

/-- Claim C4 counterexample: with the single rule registered under
`(op0, 'reversed')` for operand types `(int, str)`, inferring
`str-constant op0 int-constant` succeeds via the reversed lookup while
the operand-swapped expression infers no type at all, so the two
`infer_type` results differ. -/
theorem infer_type_reversed_only_cex :
    infer_type sX (.binOp op0 (.constant none none (some (.proto "str")))
                              (.constant none none (some (.proto "int"))))
      = .ok (some (.proto "T")) ∧
    infer_type sX (.binOp op0 (.constant none none (some (.proto "int")))
                              (.constant none none (some (.proto "str"))))
      = .ok none ∧
    sX.rules (op0, false) = noRules ∧
    (Except.ok (some (Val.proto "T")) : Except IErr (Option Val)) ≠ .ok none := by
  refine ⟨rfl, rfl, rfl, by simp⟩

/-- Claim C4 (amended): for a non-comparison/type-check/membership operator
whose rule table has only `(op, 'reversed')` entries, `infer_type` of
`BinOp(A, op, B)` is exactly the reversed-rule lookup at the swapped
operand-type tuple `(type B, type A)`; consequently the two operand
orders give equal results whenever the operands' inferred types
coincide (but not in general — see the counterexample). -/
theorem infer_type_reversed_amended (s : Schema) (op : Op) (A B : IR)
    (ta tb : Option Val)
    (hcls : (op.isComparison || op.isTypeCheck || op.isMembership) = false)
    (hfwd : ∀ tys, s.rules (op, false) tys = none)
    (hA : infer_type s A = .ok ta) (hB : infer_type s B = .ok tb) :
    infer_type s (.binOp op A B) = chk (s.rules (op, true) [tb, ta]) ∧
    (ta = tb → infer_type s (.binOp op A B) = infer_type s (.binOp op B A)) := by
  have hred : ∀ (X Y : IR) (tx ty : Option Val), infer_type s X = .ok tx →
      infer_type s Y = .ok ty →
      infer_type s (.binOp op X Y) = chk (s.rules (op, true) [ty, tx]) := by
    intro X Y tx ty hX hY
    show (if op.isComparison || op.isTypeCheck || op.isMembership then
            chk (some (s.get "std::bool"))
          else
            match infer_type s X with
            | .error e => .error e
            | .ok lt =>
              match infer_type s Y with
              | .error e => .error e
              | .ok rt =>
                chk (match s.rules (op, false) [lt, rt] with
                     | some u => some u
                     | none => s.rules (op, true) [rt, lt]))
        = chk (s.rules (op, true) [ty, tx])
    simp only [hcls, Bool.false_eq_true, if_false, hX, hY, hfwd]
  constructor
  · exact hred A B ta tb hA hB
  · intro hteq
    rw [hred A B ta tb hA hB, hred B A tb ta hB hA, hteq]

/-- Claim C4 witness: the fallback characterization applied at the
counterexample schema. -/
theorem infer_type_reversed_amended_witness :
    infer_type sX (.binOp op0 (.constant none none (some (.proto "str")))
                              (.constant none none (some (.proto "int"))))
      = chk (sX.rules (op0, true) [some (.proto "int"), some (.proto "str")]) :=
  (infer_type_reversed_amended sX op0
    (.constant none none (some (.proto "str")))
    (.constant none none (some (.proto "int")))
    (some (.proto "str")) (some (.proto "int"))
    rfl (fun _ => rfl) rfl rfl).1

theorem lookup_some_mem {l : List (Nat × Val)} {i : Nat} {v : Val}
    (h : l.lookup i = some v) : (i, v) ∈ l := by
  induction l with
  | nil => simp [List.lookup] at h
  | cons kv rest ih =>
    obtain ⟨k, w⟩ := kv
    simp only [List.lookup] at h
    cases hki : (i == k) with
    | true =>
      rw [hki] at h
      simp only [Option.some.injEq] at h
      have hk : i = k := by simpa using hki
      subst hk; subst h
      exact List.mem_cons_self _ _
    | false =>
      rw [hki] at h
      exact List.mem_cons_of_mem _ (ih h)

theorem lookup_none_not_mem {l : List (Nat × Val)} {i : Nat}
    (h : l.lookup i = none) (v : Val) : (i, v) ∉ l := by
  induction l with
  | nil => simp
  | cons kv rest ih =>
    obtain ⟨k, w⟩ := kv
    simp only [List.lookup] at h
    cases hki : (i == k) with
    | true => rw [hki] at h; simp at h
    | false =>
      rw [hki] at h
      intro hmem
      rcases List.mem_cons.mp hmem with heq | hmem2
      · have : i = k := by cases heq; rfl
        rw [this] at hki
        simp at hki
      · exact ih h hmem2

theorem lookup_of_mem_nodupkeys {l : List (Nat × Val)}
    (hnd : (l.map Prod.fst).Nodup) {i : Nat} {v : Val} (h : (i, v) ∈ l) :
    l.lookup i = some v := by
  induction l with
  | nil => simp at h
  | cons kv rest ih =>
    obtain ⟨k, w⟩ := kv
    simp only [List.map_cons, List.nodup_cons] at hnd
    rcases List.mem_cons.mp h with heq | hmem
    · cases heq
      simp [List.lookup]
    · have hki : k ≠ i := by
        intro he; subst he
        exact hnd.1 (List.mem_map.mpr ⟨(k, v), hmem, rfl⟩)
      simp only [List.lookup]
      rw [show (i == k) = false from by simpa using (Ne.symm hki)]
      exact ih hnd.2 hmem

theorem nodupkeys_unique {l : List (Nat × Val)}
    (hnd : (l.map Prod.fst).Nodup) {i : Nat} {t1 t2 : Val}
    (h1 : (i, t1) ∈ l) (h2 : (i, t2) ∈ l) : t1 = t2 := by
  have e1 := lookup_of_mem_nodupkeys hnd h1
  have e2 := lookup_of_mem_nodupkeys hnd h2
  rw [e1] at e2
  exact (Option.some.injEq _ _ ▸ e2).symm ▸ rfl

theorem occOf_of_step {s : Schema} {e : Op × IR × IR} {o : Option (Nat × Val)}
    (h : argTypeOfBinOp s e.1 e.2.1 e.2.2 = .ok o) : occOf s e = o := by
  unfold occOf
  rw [h]
  cases o <;> rfl

theorem processBinOps_ok (s : Schema) :
    ∀ (L : List (Op × IR × IR)) (acc : List (Nat × Val)),
    (∀ e ∈ L, ∃ o, argTypeOfBinOp s e.1 e.2.1 e.2.2 = .ok o) →
    ((acc.map Prod.fst).Nodup) →
    (∀ i t1 t2, (i, t1) ∈ L.filterMap (occOf s) ++ acc →
                (i, t2) ∈ L.filterMap (occOf s) ++ acc → t1 = t2) →
    ∃ m, processBinOps s L acc = .ok m ∧
      ∀ i t, (i, t) ∈ L.filterMap (occOf s) ++ acc → m.lookup i = some t
  | [], acc, _, hnd, _ =>
    ⟨acc, rfl, fun i t h => lookup_of_mem_nodupkeys hnd (by simpa using h)⟩
  | (op, l, r) :: rest, acc, H, hnd, hnc => by
    obtain ⟨o, ho⟩ := H (op, l, r) (List.mem_cons_self _ _)
    have hocc : occOf s (op, l, r) = o := occOf_of_step ho
    have Hrest : ∀ e ∈ rest, ∃ o2, argTypeOfBinOp s e.1 e.2.1 e.2.2 = .ok o2 :=
      fun e he => H e (List.mem_cons_of_mem _ he)
    have hstep : processBinOps s ((op, l, r) :: rest) acc
        = (match argTypeOfBinOp s op l r with
           | .error e => .error e
           | .ok none => processBinOps s rest acc
           | .ok (some (idx, t)) =>
             match acc.lookup idx with
             | none => processBinOps s rest ((idx, t) :: acc)
             | some existing =>
               if existing = t then processBinOps s rest acc
               else .error (.ambiguous existing t)) := rfl
    rcases o with _ | ⟨idx, t⟩
    · have hfm : ((op, l, r) :: rest).filterMap (occOf s) = rest.filterMap (occOf s) := by
        rw [List.filterMap_cons, hocc]
      have hmid : processBinOps s ((op, l, r) :: rest) acc = processBinOps s rest acc := by
        rw [hstep, ho]
      rw [hfm] at hnc
      rw [hmid, hfm]
      exact processBinOps_ok s rest acc Hrest hnd hnc
    · have hfm : ((op, l, r) :: rest).filterMap (occOf s)
          = (idx, t) :: rest.filterMap (occOf s) := by
        rw [List.filterMap_cons, hocc]
      have hmid : processBinOps s ((op, l, r) :: rest) acc
          = (match acc.lookup idx with
             | none => processBinOps s rest ((idx, t) :: acc)
             | some existing =>
               if existing = t then processBinOps s rest acc
               else .error (.ambiguous existing t)) := by
        rw [hstep, ho]
      cases hl : acc.lookup idx with
      | none =>
        have hmid2 : processBinOps s ((op, l, r) :: rest) acc
            = processBinOps s rest ((idx, t) :: acc) := by
          rw [hmid, hl]
        have hnd2 : (((idx, t) :: acc).map Prod.fst).Nodup := by
          rw [List.map_cons, List.nodup_cons]
          refine ⟨?_, hnd⟩
          intro hmemk
          obtain ⟨⟨i2, v2⟩, hmem, hfst⟩ := List.mem_map.mp hmemk
          cases hfst
          exact lookup_none_not_mem hl v2 hmem
        have hconv : ∀ p : Nat × Val,
            p ∈ rest.filterMap (occOf s) ++ (idx, t) :: acc ↔
            p ∈ ((op, l, r) :: rest).filterMap (occOf s) ++ acc := by
          intro p
          rw [hfm]
          simp only [List.mem_append, List.mem_cons]
          tauto
        obtain ⟨m, hm, hlk⟩ := processBinOps_ok s rest ((idx, t) :: acc) Hrest hnd2
          (fun i t1 t2 h1 h2 => hnc i t1 t2 ((hconv _).mp h1) ((hconv _).mp h2))
        exact ⟨m, by rw [hmid2, hm], fun i t2 h => hlk i t2 ((hconv _).mpr h)⟩
      | some existing =>
        have hmemex : (idx, existing) ∈ acc := lookup_some_mem hl
        have hmemt : (idx, t) ∈ ((op, l, r) :: rest).filterMap (occOf s) ++ acc := by
          rw [hfm]; simp
        have het : existing = t :=
          hnc idx existing t (List.mem_append_right _ hmemex) hmemt
        have hmid2 : processBinOps s ((op, l, r) :: rest) acc
            = processBinOps s rest acc := by
          rw [hmid, hl]; simp [het]
        have hsub : ∀ p : Nat × Val,
            p ∈ rest.filterMap (occOf s) ++ acc →
            p ∈ ((op, l, r) :: rest).filterMap (occOf s) ++ acc := by
          intro p hp
          rw [hfm]
          simp only [List.mem_append, List.mem_cons]
          rcases List.mem_append.mp hp with h1 | h2
          · exact Or.inl (Or.inr h1)
          · exact Or.inr h2
        obtain ⟨m, hm, hlk⟩ := processBinOps_ok s rest acc Hrest hnd
          (fun i t1 t2 h1 h2 => hnc i t1 t2 (hsub _ h1) (hsub _ h2))
        refine ⟨m, by rw [hmid2, hm], ?_⟩
        intro i t2 h
        rw [hfm] at h
        rcases List.mem_append.mp h with h1 | h2
        · rcases List.mem_cons.mp h1 with heq | h3
          · have hi : i = idx := congrArg Prod.fst heq
            have ht2 : t2 = t := congrArg Prod.snd heq
            rw [hi, ht2]
            exact hlk idx t (List.mem_append_right _ (het ▸ hmemex))
          · exact hlk i t2 (List.mem_append_left _ h3)
        · exact hlk i t2 (List.mem_append_right _ h2)

theorem processBinOps_conflict (s : Schema) :
    ∀ (L : List (Op × IR × IR)) (acc : List (Nat × Val)),
    (∀ e ∈ L, ∃ o, argTypeOfBinOp s e.1 e.2.1 e.2.2 = .ok o) →
    ((acc.map Prod.fst).Nodup) →
    (∃ i t1 t2, (i, t1) ∈ L.filterMap (occOf s) ++ acc ∧
                (i, t2) ∈ L.filterMap (occOf s) ++ acc ∧ t1 ≠ t2) →
    ∃ u1 u2, processBinOps s L acc = .error (.ambiguous u1 u2)
  | [], acc, _, hnd, ⟨i, t1, t2, h1, h2, hne⟩ => by
    exact absurd (nodupkeys_unique hnd (by simpa using h1) (by simpa using h2)) hne
  | (op, l, r) :: rest, acc, H, hnd, ⟨i, t1, t2, h1, h2, hne⟩ => by
    obtain ⟨o, ho⟩ := H (op, l, r) (List.mem_cons_self _ _)
    have hocc : occOf s (op, l, r) = o := occOf_of_step ho
    have Hrest : ∀ e ∈ rest, ∃ o2, argTypeOfBinOp s e.1 e.2.1 e.2.2 = .ok o2 :=
      fun e he => H e (List.mem_cons_of_mem _ he)
    have hstep : processBinOps s ((op, l, r) :: rest) acc
        = (match argTypeOfBinOp s op l r with
           | .error e => .error e
           | .ok none => processBinOps s rest acc
           | .ok (some (idx, t)) =>
             match acc.lookup idx with
             | none => processBinOps s rest ((idx, t) :: acc)
             | some existing =>
               if existing = t then processBinOps s rest acc
               else .error (.ambiguous existing t)) := rfl
    rcases o with _ | ⟨idx, t⟩
    · have hfm : ((op, l, r) :: rest).filterMap (occOf s) = rest.filterMap (occOf s) := by
        rw [List.filterMap_cons, hocc]
      have hmid : processBinOps s ((op, l, r) :: rest) acc = processBinOps s rest acc := by
        rw [hstep, ho]
      rw [hfm] at h1 h2
      rw [hmid]
      exact processBinOps_conflict s rest acc Hrest hnd ⟨i, t1, t2, h1, h2, hne⟩
    · have hfm : ((op, l, r) :: rest).filterMap (occOf s)
          = (idx, t) :: rest.filterMap (occOf s) := by
        rw [List.filterMap_cons, hocc]
      have hmid : processBinOps s ((op, l, r) :: rest) acc
          = (match acc.lookup idx with
             | none => processBinOps s rest ((idx, t) :: acc)
             | some existing =>
               if existing = t then processBinOps s rest acc
               else .error (.ambiguous existing t)) := by
        rw [hstep, ho]
      cases hl : acc.lookup idx with
      | none =>
        have hmid2 : processBinOps s ((op, l, r) :: rest) acc
            = processBinOps s rest ((idx, t) :: acc) := by
          rw [hmid, hl]
        have hnd2 : (((idx, t) :: acc).map Prod.fst).Nodup := by
          rw [List.map_cons, List.nodup_cons]
          refine ⟨?_, hnd⟩
          intro hmemk
          obtain ⟨⟨i2, v2⟩, hmem, hfst⟩ := List.mem_map.mp hmemk
          cases hfst
          exact lookup_none_not_mem hl v2 hmem
        have hconv : ∀ p : Nat × Val,
            p ∈ ((op, l, r) :: rest).filterMap (occOf s) ++ acc →
            p ∈ rest.filterMap (occOf s) ++ (idx, t) :: acc := by
          intro p hp
          rw [hfm] at hp
          simp only [List.mem_append, List.mem_cons] at hp ⊢
          tauto
        rw [hmid2]
        exact processBinOps_conflict s rest ((idx, t) :: acc) Hrest hnd2
          ⟨i, t1, t2, hconv _ h1, hconv _ h2, hne⟩
      | some existing =>
        have hmemex : (idx, existing) ∈ acc := lookup_some_mem hl
        by_cases het : existing = t
        · have hmid2 : processBinOps s ((op, l, r) :: rest) acc
              = processBinOps s rest acc := by
            rw [hmid, hl]; simp [het]
          have hconv : ∀ p : Nat × Val,
              p ∈ ((op, l, r) :: rest).filterMap (occOf s) ++ acc →
              p ∈ rest.filterMap (occOf s) ++ acc := by
            intro p hp
            rw [hfm] at hp
            rcases List.mem_append.mp hp with hp1 | hp2
            · rcases List.mem_cons.mp hp1 with heq | hp3
              · subst heq
                subst het
                exact List.mem_append_right _ hmemex
              · exact List.mem_append_left _ hp3
            · exact List.mem_append_right _ hp2
          rw [hmid2]
          exact processBinOps_conflict s rest acc Hrest hnd
            ⟨i, t1, t2, hconv _ h1, hconv _ h2, hne⟩
        · have hmid2 : processBinOps s ((op, l, r) :: rest) acc
              = .error (.ambiguous existing t) := by
            rw [hmid, hl]; simp [het]
          exact ⟨existing, t, hmid2⟩

/-- Claim C8: when every scanned operator occurrence has a well-defined
inferred type, `infer_arg_types` raises the "ambiguous resolution"
conflict error as soon as the same parameter index receives two
different inferred types, and otherwise returns a mapping sending each
occurring index to its agreed type. -/
theorem infer_arg_types_conflict (s : Schema) (ir : IR)
    (H : ∀ e ∈ findBinOps ir, ∃ o, argTypeOfBinOp s e.1 e.2.1 e.2.2 = .ok o) :
    ((∃ i t1 t2, (i, t1) ∈ occList s ir ∧ (i, t2) ∈ occList s ir ∧ t1 ≠ t2) →
      ∃ u1 u2, infer_arg_types s ir = .error (.ambiguous u1 u2)) ∧
    ((∀ i t1 t2, (i, t1) ∈ occList s ir → (i, t2) ∈ occList s ir → t1 = t2) →
      ∃ m, infer_arg_types s ir = .ok m ∧
        ∀ i t, (i, t) ∈ occList s ir → m.lookup i = some t) := by
  constructor
  · rintro ⟨i, t1, t2, h1, h2, hne⟩
    exact processBinOps_conflict s (findBinOps ir) [] H (by simp)
      ⟨i, t1, t2, by simpa only [List.append_nil] using h1,
        by simpa only [List.append_nil] using h2, hne⟩
  · intro hagree
    obtain ⟨m, hm, hlk⟩ := processBinOps_ok s (findBinOps ir) [] H (by simp)
      (fun i t1 t2 h1 h2 => hagree i t1 t2 (by simpa only [List.append_nil] using h1)
        (by simpa only [List.append_nil] using h2))
    exact ⟨m, hm, fun i t h => hlk i t (by simpa only [List.append_nil] using h)⟩

/-- Claim C8 witness: the scenario tree `age > $0 AND name = $0` over `sW`
(where `age : std::int` and `name : std::str`) raises the ambiguous
resolution error. -/
theorem infer_arg_types_conflict_witness :
    ∃ u1 u2, infer_arg_types sW treeW = .error (.ambiguous u1 u2) :=
  (infer_arg_types_conflict sW treeW
    (fun e he => by
      have he2 : e ∈ [(opGT, personAge, IR.constant (some 0) none none),
                      (opEQ, personName, IR.constant (some 0) none none)] := he
      rcases List.mem_cons.mp he2 with rfl | he3
      · exact ⟨some (0, .proto "std::int"), rfl⟩
      · rcases List.mem_cons.mp he3 with rfl | he4
        · exact ⟨some (0, .proto "std::str"), rfl⟩
        · simp at he4)).1
    ⟨0, .proto "std::int", .proto "std::str",
      show (0, Val.proto "std::int") ∈
          [(0, Val.proto "std::int"), (0, Val.proto "std::str")] by simp,
      show (0, Val.proto "std::str") ∈
          [(0, Val.proto "std::int"), (0, Val.proto "std::str")] by simp,
      by simp⟩

theorem chk_ok_good {r : Option Val} {v : Val} (h : chk r = .ok (some v)) :
    assertOk v = true := by
  cases r with
  | none => simp [chk] at h
  | some w =>
    by_cases hw : assertOk w = true
    · have h2 : w = v := by simpa [chk, hw] using h
      rw [← h2]; exact hw
    · simp [chk, hw] at h

theorem chk_good_ne {r : Option Val} (hr : ∀ v, r = some v → assertOk v = true) :
    chk r ≠ .error .typeAssert := by
  cases r with
  | none => simp [chk]
  | some w => simp [chk, hr w rfl]

theorem conceptOfNode_err {r : IR} {e : IErr} (h : conceptOfNode r = .error e) :
    e = .attrErr := by
  cases r <;> simp [conceptOfNode] at h <;> exact h.symm

theorem linkProtoOfNode_err {r : IR} {e : IErr} (h : linkProtoOfNode r = .error e) :
    e = .attrErr := by
  cases r <;> simp [linkProtoOfNode] at h <;> exact h.symm

theorem collectConcepts_err : ∀ {ps : List IR} {e : IErr},
    collectConcepts ps = .error e → e = .attrErr
  | [], e, h => by simp [collectConcepts] at h
  | p :: rest, e, h => by
    simp only [collectConcepts] at h
    split at h
    · have he : _ = e := (Except.error.injEq _ _).mp h
      exact he ▸ conceptOfNode_err (by assumption)
    · split at h
      · have he : _ = e := (Except.error.injEq _ _).mp h
        exact he ▸ collectConcepts_err (by assumption)
      · simp at h

theorem collectLinkProtos_err : ∀ {ps : List IR} {e : IErr},
    collectLinkProtos ps = .error e → e = .attrErr
  | [], e, h => by simp [collectLinkProtos] at h
  | p :: rest, e, h => by
    simp only [collectLinkProtos] at h
    split at h
    · have he : _ = e := (Except.error.injEq _ _).mp h
      exact he ▸ linkProtoOfNode_err (by assumption)
    · split at h
      · have he : _ = e := (Except.error.injEq _ _).mp h
        exact he ▸ collectLinkProtos_err (by assumption)
      · simp at h

theorem conceptFromRef_err {s : Schema} {ref : IR} {e : IErr}
    (h : conceptFromRef s ref = .error e) : e = .attrErr := by
  unfold conceptFromRef at h
  split at h
  · split at h
    · have he : _ = e := (Except.error.injEq _ _).mp h
      exact he ▸ collectConcepts_err (by assumption)
    · simp at h
  · exact conceptOfNode_err h

theorem linkFromRef_err {s : Schema} {ref : IR} {e : IErr}
    (h : linkFromRef s ref = .error e) : e = .attrErr := by
  unfold linkFromRef at h
  split at h
  · split at h
    · have he : _ = e := (Except.error.injEq _ _).mp h
      exact he ▸ collectLinkProtos_err (by assumption)
    · simp at h
  · exact linkProtoOfNode_err h

@[simp] theorem goodIRList_nil : goodIRList [] = true := by
  rw [goodIRList.eq_def]

@[simp] theorem goodIRList_cons (e : IR) (rest : List IR) :
    goodIRList (e :: rest) = (goodIR e && goodIRList rest) := by
  rw [goodIRList.eq_def]

@[simp] theorem goodIROpt_none : goodIROpt none = true := by
  rw [goodIROpt.eq_def]

@[simp] theorem goodIROpt_some (e : IR) : goodIROpt (some e) = goodIR e := by
  rw [goodIROpt.eq_def]

theorem infer_type_ok_good (s : Schema) (ir : IR) {v : Val}
    (h : infer_type s ir = .ok (some v)) : assertOk v = true := by
  rw [infer_type.eq_def] at h
  split at h
  all_goals try (simp only [] at h)
  all_goals try split at h
  all_goals try split at h
  all_goals try split at h
  all_goals try split at h
  all_goals first
    | exact chk_ok_good h
    | simp_all

set_option maxHeartbeats 1600000 in
/-- Claim C9: under the well-typedness precondition on the schema catalog
and on the type annotations embedded in the tree, the assertion-failure
branch of `infer_type` (utils.py:204-210) is unreachable: every non-null
result is a schema type handle or a tuple with a type handle at
position 1, because every returning branch passes through the `chk`
assertion and all raising branches raise other errors. -/
theorem infer_type_assert_unreachable (s : Schema) (hs : Schema.good s) (ir : IR) :
    goodIR ir = true → infer_type s ir ≠ .error .typeAssert := by
  obtain ⟨hget, hrp, hgp, hnca, hrules, hfr⟩ := hs
  induction ir using infer_type.induct s
  all_goals intro hir hc
  all_goals rw [goodIR.eq_def] at hir
  all_goals try (simp at hir)
  all_goals rw [infer_type.eq_def] at hc
  all_goals try (simp only [] at hc)
  all_goals try split at hc
  all_goals try split at hc
  all_goals try split at hc
  all_goals try split at hc
  all_goals try first
    | (exact absurd hc (chk_good_ne (fun v hv => by
         cases hv
         first
           | exact hget _
           | exact hfr _
           | rfl
           | exact hrp _ _ _ (by assumption)
           | exact hgp _ _ _ (by assumption)
           | exact hrules _ _ _ (by assumption)
           | exact infer_type_ok_good s _ (by assumption)
           | simp_all)))
    | (exact absurd hc (chk_good_ne (fun v hv => hrules _ _ _ hv)))
    | (rw [show chk none = (Except.ok none : Except IErr (Option Val)) from rfl] at hc
       simp at hc)
    | (rename_i _e1 hq
       injection hc with hce
       rw [hce] at hq
       first
         | (have hx := conceptFromRef_err hq
            simp at hx)
         | (have hx := linkFromRef_err hq
            simp at hx))
    | simp_all

theorem sW_good : Schema.good sW := by
  refine ⟨fun n => rfl, ?_, ?_, fun l => rfl, ?_, fun n => rfl⟩
  · intro c n v h
    simp only [sW] at h
    split at h
    · cases h; rfl
    · cases h; rfl
    · simp at h
  · intro c n v h
    simp [sW] at h
  · intro k ts v h
    simp [sW] at h

/-- Claim C9 witness: the well-typed schema `sW` and a concrete node. -/
theorem infer_type_assert_unreachable_witness :
    infer_type sW (.metaRef "x") ≠ .error .typeAssert :=
  infer_type_assert_unreachable sW sW_good (.metaRef "x") (by rw [goodIR.eq_def])
